import Mathlib

/-!
# Shallow embedding of `gohistogram`'s weighted histogram

This file embeds `src/weightedhistogram.go` into Lean 4 and proves the
specification claims about it.  `float64` values are modelled as rationals
(`ℚ`); a floating-point division whose divisor is zero (which in Go yields
`NaN` or `±Inf`, values `ℚ` cannot carry) is modelled as `Option.none`, and a
Go runtime panic (slice index out of range) is likewise modelled as `none` of
the surrounding operation.  Go `int` is modelled as `ℤ`.
-/

namespace GoHistogram

/-- Modelled from the spec: the plain bin record (`Bin`) is declared outside
`weightedhistogram.go` (in the repository's `histogram.go`, which is not part
of the sources given); its two fields `Value` and `Count` are fully determined
by their uses in `weightedhistogram.go` and by the spec's data model
(`{ value: float64, weight: float64 }`). -/
structure Bin where
  Value : ℚ
  Count : ℚ
deriving DecidableEq, Repr

/-- The `WeightedHistogram` struct of `weightedhistogram.go`. -/
structure WeightedHistogram where
  Bins : List Bin
  Maxbins : ℤ
  Total : ℚ
  Alpha : ℚ
deriving DecidableEq, Repr

/-- `NewWeightedHistogram(n, alpha)`: no validation is performed. -/
def NewWeightedHistogram (n : ℤ) (alpha : ℚ) : WeightedHistogram :=
  { Bins := [], Maxbins := n, Total := 0, Alpha := alpha }

/-- `ewma(existingVal, newVal, alpha) = newVal*(1-alpha) + existingVal*alpha`. -/
def ewma (existingVal newVal alpha : ℚ) : ℚ :=
  newVal * (1 - alpha) + existingVal * alpha

/-- Body of `scaleDown`'s loop: every bin whose index differs from `except`
gets its count replaced by `ewma(count, 0, alpha)`.  `i` is the index of the
first element of the remaining list. -/
def scaleDownAux (alpha : ℚ) (except : ℕ) : ℕ → List Bin → List Bin
  | _, [] => []
  | i, b :: rest =>
    (if i = except then b else { Value := b.Value, Count := ewma b.Count 0 alpha }) ::
      scaleDownAux alpha except (i + 1) rest

/-- `(h *WeightedHistogram) scaleDown(except int)`, acting on the bin list. -/
def scaleDown (bins : List Bin) (except : ℕ) (alpha : ℚ) : List Bin :=
  scaleDownAux alpha except 0 bins

/-- The scan of `Add`'s `for` loop: returns the updated bin list together with
`some i` when bin `i` was touched (exact match, or a new bin inserted before
the first larger value) and so `scaleDown(i)` is deferred, or `none` when the
loop fell through and the sample was appended at the end (no `scaleDown`). -/
def addCore (bins : List Bin) (n : ℚ) : List Bin × Option ℕ :=
  match bins with
  | [] => ([{ Value := n, Count := 1 }], none)
  | b :: rest =>
    if b.Value = n then
      ({ Value := b.Value, Count := b.Count + 1 } :: rest, some 0)
    else if b.Value > n then
      ({ Value := n, Count := 1 } :: b :: rest, some 0)
    else
      let p := addCore rest n
      (b :: p.1, p.2.map (· + 1))

/-- The bin list of `Add` just before the deferred `trim` runs: the scan of
the loop followed by the deferred `scaleDown` (registered after `trim`, hence
executed before it). -/
def addPreTrim (bins : List Bin) (alpha : ℚ) (n : ℚ) : List Bin :=
  match (addCore bins n).2 with
  | some i => scaleDown (addCore bins n).1 i alpha
  | none => (addCore bins n).1

/-- Sum of the counts of a bin list (the recomputation at the top of `trim`). -/
def binsTotal (bins : List Bin) : ℚ :=
  match bins with
  | [] => 0
  | b :: rest => b.Count + binsTotal rest

/-- The adjacent differences `Bins[i].Value - Bins[i-1].Value` scanned by
`trim`'s inner loop, listed for `i = 1, …, len-1`. -/
def deltas (bins : List Bin) : List ℚ :=
  List.zipWith (fun a b => b.Value - a.Value) bins bins.tail

/-- The running-minimum scan of `trim`'s inner loop over the adjacent deltas:
`i` is the loop index of the pair currently examined, the accumulator holds
`(minDelta, minDeltaIndex)`; only a strictly smaller delta updates it. -/
def minScan : List ℚ → ℕ → ℚ × ℕ → ℚ × ℕ
  | [], _, acc => acc
  | d :: rest, i, acc =>
    if d < acc.1 then minScan rest (i + 1) (d, i) else minScan rest (i + 1) acc

/-- The merged bin built by `trim`: summed count, count-weighted average
value.  In Go the value is a float division by `totalCount`; when
`totalCount = 0` that division yields `NaN`/`±Inf`, which `ℚ` cannot
represent, so the result is `none`. -/
def mergedBin (b1 b2 : Bin) : Option Bin :=
  let totalCount := b1.Count + b2.Count
  if totalCount = 0 then none
  else some { Value := (b1.Value * b1.Count + b2.Value * b2.Count) / totalCount,
              Count := totalCount }

/-- One iteration of `trim`'s `for len(h.Bins) > h.Maxbins` loop body: find
the first minimal adjacent delta (initial minimum `1e99`, initial index `0`),
then merge bins `minDeltaIndex-1` and `minDeltaIndex`.  When no delta beats
`1e99` the index stays `0` and Go reads `h.Bins[-1]`, a runtime panic,
modelled as `none`. -/
def trimOnce (bins : List Bin) : Option (List Bin) :=
  let res := minScan (deltas bins) 1 ((10 : ℚ) ^ 99, 0)
  let minDeltaIndex := res.2
  if minDeltaIndex = 0 then none
  else
    match bins.get? (minDeltaIndex - 1), bins.get? minDeltaIndex with
    | some b1, some b2 =>
      (mergedBin b1 b2).map
        (fun m => bins.take (minDeltaIndex - 1) ++ m :: bins.drop (minDeltaIndex + 1))
    | _, _ => none

/-- `trim`'s merge loop, with explicit fuel.  Each successful `trimOnce`
removes exactly one bin, and once the list is empty (or a singleton) while
still over budget, `trimOnce` is `none` (the Go loop body panics), so fuel
`bins.length` makes every fuel case below reachable only in the states the Go
loop itself reaches: the fuel-zero case can only be entered with an empty bin
list, where it mirrors the loop condition exactly. -/
def trimLoopFuel (maxbins : ℤ) : ℕ → List Bin → Option (List Bin)
  | 0, bins => if maxbins < (bins.length : ℤ) then none else some bins
  | fuel + 1, bins =>
    if maxbins < (bins.length : ℤ) then (trimOnce bins).bind (trimLoopFuel maxbins fuel)
    else some bins

/-- `(h *WeightedHistogram) trim()`: recompute `Total` as the sum of the
current counts, then merge closest adjacent bins while over the bin budget. -/
def trim (h : WeightedHistogram) : Option WeightedHistogram :=
  (trimLoopFuel h.Maxbins h.Bins.length h.Bins).map
    (fun bins => { Bins := bins, Maxbins := h.Maxbins,
                   Total := binsTotal h.Bins, Alpha := h.Alpha })

/-- `(h *WeightedHistogram) Add(n float64)`: the loop scan, the deferred
`scaleDown` of the touched bin's siblings (absent on the append path), then
the deferred `trim`. -/
def Add (h : WeightedHistogram) (n : ℚ) : Option WeightedHistogram :=
  trim { Bins := addPreTrim h.Bins h.Alpha n, Maxbins := h.Maxbins,
         Total := h.Total, Alpha := h.Alpha }

/-- A whole sequence of `Add` calls, failing as soon as one call panics. -/
def AddAll (h : WeightedHistogram) : List ℚ → Option WeightedHistogram
  | [] => some h
  | n :: rest =>
    match Add h n with
    | some h' => AddAll h' rest
    | none => none

/-- The loop of `Quantile`: `count` is the remaining weight to consume;
returns the current bin's value once it is exhausted, `-1` past the end. -/
def quantileLoop (count : ℚ) : List Bin → ℚ
  | [] => -1
  | b :: rest =>
    if count - b.Count ≤ 0 then b.Value else quantileLoop (count - b.Count) rest

/-- `(h *WeightedHistogram) Quantile(q float64)`. -/
def Quantile (h : WeightedHistogram) (q : ℚ) : ℚ :=
  quantileLoop (q * h.Total) h.Bins

/-- The accumulation loop of `CDF`: total count of bins with value `≤ x`. -/
def cdfLoop (x : ℚ) : List Bin → ℚ
  | [] => 0
  | b :: rest => (if b.Value ≤ x then b.Count else 0) + cdfLoop x rest

/-- Float division, `none` when the divisor is zero (Go would produce the
unrepresentable `NaN` or `±Inf`). -/
def fdiv (a b : ℚ) : Option ℚ :=
  if b = 0 then none else some (a / b)

/-- `(h *WeightedHistogram) CDF(x float64)`: unguarded division by `Total`. -/
def CDF (h : WeightedHistogram) (x : ℚ) : Option ℚ :=
  fdiv (cdfLoop x h.Bins) h.Total

/-- The sum `Σ value·count` accumulated by `Mean`'s loop. -/
def meanSum : List Bin → ℚ
  | [] => 0
  | b :: rest => b.Value * b.Count + meanSum rest

/-- `(h *WeightedHistogram) Mean()`: guarded to `0` on `Total == 0`. -/
def Mean (h : WeightedHistogram) : ℚ :=
  if h.Total = 0 then 0 else meanSum h.Bins / h.Total

/-- The sum `Σ count·(value-mean)²` accumulated by `Variance`'s loop. -/
def varSum (mean : ℚ) : List Bin → ℚ
  | [] => 0
  | b :: rest => b.Count * (b.Value - mean) * (b.Value - mean) + varSum mean rest

/-- `(h *WeightedHistogram) Variance()`: guarded to `0` on `Total == 0`. -/
def Variance (h : WeightedHistogram) : ℚ :=
  if h.Total = 0 then 0 else varSum (Mean h) h.Bins / h.Total

/-- `(h *WeightedHistogram) Count()`. -/
def Count (h : WeightedHistogram) : ℚ :=
  h.Total

/-- Cumulative weight of the bins up to and including index `i` (the prefix
sums `Quantile` compares against `q * Total`). -/
def prefixW (bins : List Bin) (i : ℕ) : ℚ :=
  binsTotal (bins.take (i + 1))

/-! Concrete reachable histogram states used by witnesses and
counterexamples below. -/

/-- The state after `New(5, 1/2); Add(1)`. -/
def histOne : WeightedHistogram :=
  { Bins := [{ Value := 1, Count := 1 }], Maxbins := 5, Total := 1, Alpha := 1/2 }

/-- The state after `New(5, 1/2); Add(-1)`. -/
def histNegOne : WeightedHistogram :=
  { Bins := [{ Value := -1, Count := 1 }], Maxbins := 5, Total := 1, Alpha := 1/2 }

/-- The state after `New(5, 1/2); Add(2); Add(1)` (the second insertion
decays the bin holding `2` by the factor `1/2`). -/
def histTwoBins : WeightedHistogram :=
  { Bins := [{ Value := 1, Count := 1 }, { Value := 2, Count := 1/2 }],
    Maxbins := 5, Total := 3/2, Alpha := 1/2 }

/-- The state after `New(2, 1/2); Add(3); Add(1); Add(2)`: the third insert
overflows the 2-bin budget and `trim` merges the two closest bins. -/
def histMerged : WeightedHistogram :=
  { Bins := [{ Value := 5/3, Count := 3/2 }, { Value := 3, Count := 1/4 }],
    Maxbins := 2, Total := 7/4, Alpha := 1/2 }

/-- A three-bin list over a 2-bin budget: the pair `(1, 2)` has the unique
smallest gap, so compaction must merge it first. -/
def binsOverBudget : List Bin :=
  [{ Value := 1, Count := 1 }, { Value := 2, Count := 1 }, { Value := 4, Count := 1 }]

/-! ## Helper lemmas -/

/-- `ewma(c, 0, α)` — the decay applied by `scaleDown` — multiplies by `α`. -/
lemma ewma_zero (c a : ℚ) : ewma c 0 a = c * a := by
  simp [ewma]

lemma scaleDownAux_get? (alpha : ℚ) (e : ℕ) :
    ∀ (l : List Bin) (s j : ℕ),
      (scaleDownAux alpha e s l).get? j =
        (l.get? j).map
          (fun b => if s + j = e then b else { Value := b.Value, Count := ewma b.Count 0 alpha })
  | [], s, j => by simp [scaleDownAux]
  | b :: rest, s, 0 => by simp [scaleDownAux]
  | b :: rest, s, j + 1 => by
    have ih := scaleDownAux_get? alpha e rest (s + 1) j
    simp only [scaleDownAux, List.get?_cons_succ, ih]
    have : s + 1 + j = s + (j + 1) := by omega
    rw [this]

lemma scaleDownAux_map_value (alpha : ℚ) (e : ℕ) :
    ∀ (l : List Bin) (s : ℕ), (scaleDownAux alpha e s l).map Bin.Value = l.map Bin.Value
  | [], _ => rfl
  | b :: rest, s => by
    simp only [scaleDownAux, List.map_cons, scaleDownAux_map_value alpha e rest (s + 1)]
    split <;> rfl

lemma scaleDownAux_count (alpha : ℚ) (e : ℕ) :
    ∀ (l : List Bin) (s : ℕ) (x : Bin), x ∈ scaleDownAux alpha e s l →
      ∃ y ∈ l, x.Value = y.Value ∧ (x.Count = y.Count ∨ x.Count = y.Count * alpha)
  | [], _, x, hx => by simp [scaleDownAux] at hx
  | b :: rest, s, x, hx => by
    simp only [scaleDownAux, List.mem_cons] at hx
    rcases hx with hx | hx
    · refine ⟨b, List.mem_cons_self b rest, ?_⟩
      subst hx
      split <;> simp [ewma_zero]
    · obtain ⟨y, hy, hv, hc⟩ := scaleDownAux_count alpha e rest (s + 1) x hx
      exact ⟨y, List.mem_cons_of_mem b hy, hv, hc⟩

lemma scaleDown_pairwise {bins : List Bin} (e : ℕ) (alpha : ℚ)
    (hp : bins.Pairwise (fun a b => a.Value < b.Value)) :
    (scaleDown bins e alpha).Pairwise (fun a b => a.Value < b.Value) := by
  have h1 : ((scaleDown bins e alpha).map Bin.Value).Pairwise (· < ·) := by
    rw [scaleDown, scaleDownAux_map_value, List.pairwise_map]
    exact hp
  rw [List.pairwise_map] at h1
  exact h1

lemma scaleDown_count_pos {bins : List Bin} (e : ℕ) {alpha : ℚ} (ha : 0 < alpha)
    (hpos : ∀ b ∈ bins, 0 < b.Count) :
    ∀ b ∈ scaleDown bins e alpha, 0 < b.Count := by
  intro x hx
  obtain ⟨y, hy, _, hc⟩ := scaleDownAux_count alpha e bins 0 x hx
  rcases hc with hc | hc
  · rw [hc]; exact hpos y hy
  · rw [hc]; exact mul_pos (hpos y hy) ha

lemma addCore_mem_value :
    ∀ (bins : List Bin) (n : ℚ) (x : Bin), x ∈ (addCore bins n).1 →
      x.Value = n ∨ ∃ y ∈ bins, x.Value = y.Value
  | [], n, x, hx => by
    simp only [addCore, List.mem_singleton] at hx
    subst hx; exact Or.inl rfl
  | b :: rest, n, x, hx => by
    simp only [addCore] at hx
    by_cases hb : b.Value = n
    · simp only [if_pos hb, List.mem_cons] at hx
      rcases hx with hx | hx
      · subst hx; exact Or.inl hb
      · exact Or.inr ⟨x, List.mem_cons_of_mem b hx, rfl⟩
    · simp only [if_neg hb] at hx
      by_cases hgt : b.Value > n
      · simp only [if_pos hgt, List.mem_cons] at hx
        rcases hx with hx | hx
        · subst hx; exact Or.inl rfl
        · exact Or.inr ⟨x, List.mem_cons.mpr hx, rfl⟩
      · simp only [if_neg hgt, List.mem_cons] at hx
        rcases hx with hx | hx
        · subst hx; exact Or.inr ⟨x, List.mem_cons_self x rest, rfl⟩
        · rcases addCore_mem_value rest n x hx with h | ⟨y, hy, hv⟩
          · exact Or.inl h
          · exact Or.inr ⟨y, List.mem_cons_of_mem b hy, hv⟩

lemma addCore_count_pos :
    ∀ (bins : List Bin) (n : ℚ), (∀ b ∈ bins, 0 < b.Count) →
      ∀ x ∈ (addCore bins n).1, 0 < x.Count
  | [], n, _, x, hx => by
    simp only [addCore, List.mem_singleton] at hx
    subst hx; norm_num
  | b :: rest, n, hpos, x, hx => by
    have hb0 : 0 < b.Count := hpos b (List.mem_cons_self b rest)
    have hrest : ∀ y ∈ rest, 0 < y.Count := fun y hy => hpos y (List.mem_cons_of_mem b hy)
    simp only [addCore] at hx
    by_cases hb : b.Value = n
    · simp only [if_pos hb, List.mem_cons] at hx
      rcases hx with hx | hx
      · subst hx; simp only []; positivity
      · exact hrest x hx
    · simp only [if_neg hb] at hx
      by_cases hgt : b.Value > n
      · simp only [if_pos hgt, List.mem_cons] at hx
        rcases hx with hx | hx
        · subst hx; norm_num
        · rcases hx with hx | hx
          · subst hx; exact hb0
          · exact hrest x hx
      · simp only [if_neg hgt, List.mem_cons] at hx
        rcases hx with hx | hx
        · subst hx; exact hb0
        · exact addCore_count_pos rest n hrest x hx

lemma addCore_pairwise :
    ∀ (bins : List Bin) (n : ℚ), bins.Pairwise (fun a b => a.Value < b.Value) →
      ((addCore bins n).1).Pairwise (fun a b => a.Value < b.Value)
  | [], n, _ => by simp [addCore]
  | b :: rest, n, hp => by
    have hptail := hp.tail
    have hrel : ∀ y ∈ rest, b.Value < y.Value := fun y hy => List.rel_of_pairwise_cons hp hy
    simp only [addCore]
    by_cases hb : b.Value = n
    · simp only [if_pos hb]
      exact List.Pairwise.cons (fun y hy => hrel y hy) hptail
    · simp only [if_neg hb]
      by_cases hgt : b.Value > n
      · simp only [if_pos hgt]
        refine List.Pairwise.cons ?_ hp
        intro y hy
        rcases List.mem_cons.mp hy with hy | hy
        · subst hy; exact hgt
        · exact lt_trans hgt (hrel y hy)
      · simp only [if_neg hgt]
        have hlt : b.Value < n := lt_of_le_of_ne (not_lt.mp hgt) hb
        refine List.Pairwise.cons ?_ (addCore_pairwise rest n hptail)
        intro y hy
        rcases addCore_mem_value rest n y hy with hv | ⟨z, hz, hv⟩
        · rw [hv]; exact hlt
        · rw [hv]; exact hrel z hz

lemma addCore_none :
    ∀ (bins : List Bin) (n : ℚ), (addCore bins n).2 = none →
      (addCore bins n).1 = bins ++ [{ Value := n, Count := 1 }]
  | [], n, _ => rfl
  | b :: rest, n, h2 => by
    simp only [addCore] at h2 ⊢
    by_cases hb : b.Value = n
    · simp [if_pos hb] at h2
    · simp only [if_neg hb] at h2 ⊢
      by_cases hgt : b.Value > n
      · simp [if_pos hgt] at h2
      · simp only [if_neg hgt, Option.map_eq_none'] at h2 ⊢
        rw [addCore_none rest n h2]
        simp

lemma binsTotal_append : ∀ (l1 l2 : List Bin), binsTotal (l1 ++ l2) = binsTotal l1 + binsTotal l2
  | [], l2 => by simp [binsTotal]
  | b :: rest, l2 => by
    show b.Count + binsTotal (rest ++ l2) = b.Count + binsTotal rest + binsTotal l2
    rw [binsTotal_append rest l2]
    ring

lemma binsTotal_nonneg : ∀ (l : List Bin), (∀ b ∈ l, 0 ≤ b.Count) → 0 ≤ binsTotal l
  | [], _ => le_refl 0
  | b :: rest, hpos => by
    have hb : 0 ≤ b.Count := hpos b (List.mem_cons_self b rest)
    have hrest := binsTotal_nonneg rest (fun x hx => hpos x (List.mem_cons_of_mem b hx))
    simpa [binsTotal] using add_nonneg hb hrest

lemma binsTotal_pos : ∀ (l : List Bin), l ≠ [] → (∀ b ∈ l, 0 < b.Count) → 0 < binsTotal l
  | [], hne, _ => absurd rfl hne
  | b :: rest, _, hpos => by
    have hb : 0 < b.Count := hpos b (List.mem_cons_self b rest)
    have hrest := binsTotal_nonneg rest
      (fun x hx => (hpos x (List.mem_cons_of_mem b hx)).le)
    simpa [binsTotal] using add_pos_of_pos_of_nonneg hb hrest

/-! ## The minimum-gap scan -/

lemma minScan_spec :
    ∀ (l : List ℚ) (i0 : ℕ) (md : ℚ) (mi : ℕ),
      (minScan l i0 (md, mi) = (md, mi) ∧ ∀ j, j < l.length → md ≤ l.getD j 0)
      ∨ (∃ j, j < l.length ∧
          minScan l i0 (md, mi) = (l.getD j 0, i0 + j) ∧
          l.getD j 0 < md ∧
          (∀ j2, j2 < l.length → l.getD j 0 ≤ l.getD j2 0) ∧
          (∀ j2, j2 < j → l.getD j 0 < l.getD j2 0))
  | [], i0, md, mi => by
    left
    exact ⟨rfl, fun j hj => absurd hj (Nat.not_lt_zero j)⟩
  | d :: rest, i0, md, mi => by
    by_cases hd : d < md
    · have hstep : minScan (d :: rest) i0 (md, mi) = minScan rest (i0 + 1) (d, i0) := by
        simp [minScan, hd]
      rcases minScan_spec rest (i0 + 1) d i0 with ⟨heq, hall⟩ | ⟨j, hj, heq, hlt, hmin, hstrict⟩
      · right
        refine ⟨0, Nat.succ_pos _, ?_, by simpa using hd, ?_, ?_⟩
        · rw [hstep, heq]; simp
        · intro j2 hj2
          cases j2 with
          | zero => simp
          | succ j2 => simpa using hall j2 (by simpa using hj2)
        · intro j2 hj2; exact absurd hj2 (Nat.not_lt_zero j2)
      · right
        refine ⟨j + 1, by simpa using hj, ?_, ?_, ?_, ?_⟩
        · rw [hstep, heq]
          simp only [List.getD_cons_succ]
          congr 1
          omega
        · simp only [List.getD_cons_succ]
          exact lt_trans hlt hd
        · intro j2 hj2
          cases j2 with
          | zero => simpa using (lt_of_lt_of_le hlt (le_refl d)).le
          | succ j2 => simpa using hmin j2 (by simpa using hj2)
        · intro j2 hj2
          cases j2 with
          | zero => simpa using hlt
          | succ j2 => simpa using hstrict j2 (by omega)
    · have hstep : minScan (d :: rest) i0 (md, mi) = minScan rest (i0 + 1) (md, mi) := by
        simp [minScan, hd]
      rcases minScan_spec rest (i0 + 1) md mi with ⟨heq, hall⟩ | ⟨j, hj, heq, hlt, hmin, hstrict⟩
      · left
        refine ⟨by rw [hstep, heq], ?_⟩
        intro j hj
        cases j with
        | zero => simpa using not_lt.mp hd
        | succ j => simpa using hall j (by simpa using hj)
      · right
        refine ⟨j + 1, by simpa using hj, ?_, by simpa using hlt, ?_, ?_⟩
        · rw [hstep, heq]
          simp only [List.getD_cons_succ]
          congr 1
          omega
        · intro j2 hj2
          cases j2 with
          | zero => simpa using (lt_of_lt_of_le hlt (not_lt.mp hd)).le
          | succ j2 => simpa using hmin j2 (by simpa using hj2)
        · intro j2 hj2
          cases j2 with
          | zero => simpa using lt_of_lt_of_le hlt (not_lt.mp hd)
          | succ j2 => simpa using hstrict j2 (by omega)

lemma deltas_length (bins : List Bin) : (deltas bins).length = bins.length - 1 := by
  simp [deltas]

lemma deltas_getD (bins : List Bin) (j : ℕ) (hj : j < (deltas bins).length) :
    (deltas bins).getD j 0 =
      (bins.getD (j + 1) { Value := 0, Count := 0 }).Value -
        (bins.getD j { Value := 0, Count := 0 }).Value := by
  have hjlen : j + 1 < bins.length := by
    rw [deltas_length] at hj
    omega
  have hj0 : j < bins.length := Nat.lt_of_succ_lt hjlen
  have hjz : j < (List.zipWith (fun a b => b.Value - a.Value) bins bins.tail).length := hj
  rw [deltas, List.getD_eq_getElem _ _ hjz, List.getElem_zipWith]
  rw [List.getD_eq_getElem _ _ hj0, List.getD_eq_getElem _ _ hjlen]
  congr 1
  rw [List.getElem_tail]

/-! ## The merge step of `trim` -/

/-- A bin list splits around two adjacent positions `k-1`, `k`. -/
lemma bins_decomp (bins : List Bin) (k : ℕ) (hk : 1 ≤ k) {b1 b2 : Bin}
    (h1 : bins.get? (k - 1) = some b1) (h2 : bins.get? k = some b2) :
    bins = bins.take (k - 1) ++ b1 :: b2 :: bins.drop (k + 1) := by
  obtain ⟨hklen, hgk⟩ := List.getElem?_eq_some_iff.mp (by rwa [List.get?_eq_getElem?] at h2)
  have hk1len : k - 1 < bins.length := by omega
  have hgk1 : bins.getD (k - 1) b1 = b1 := by
    rw [List.getD_eq_getElem _ _ hk1len]
    have := List.getElem?_eq_some_iff.mp (by rwa [List.get?_eq_getElem?] at h1)
    exact this.2
  conv_lhs => rw [← List.take_append_drop (k - 1) bins]
  congr 1
  rw [List.drop_eq_getElem_cons hk1len]
  have hsucc : k - 1 + 1 = k := by omega
  rw [hsucc, List.drop_eq_getElem_cons hklen, hgk]
  congr 1
  rw [← hgk1, List.getD_eq_getElem _ _ hk1len]

/-- What a successful `trimOnce` looks like. -/
lemma trimOnce_some {bins bins' : List Bin} (h : trimOnce bins = some bins') :
    ∃ k b1 b2 m,
      (minScan (deltas bins) 1 ((10 : ℚ) ^ 99, 0)).2 = k ∧ 1 ≤ k ∧
      bins.get? (k - 1) = some b1 ∧ bins.get? k = some b2 ∧
      mergedBin b1 b2 = some m ∧
      bins' = bins.take (k - 1) ++ m :: bins.drop (k + 1) := by
  simp only [trimOnce] at h
  generalize hkdef : (minScan (deltas bins) 1 ((10 : ℚ) ^ 99, 0)).2 = k at h
  by_cases hk0 : k = 0
  · rw [if_pos hk0] at h
    simp at h
  · rw [if_neg hk0] at h
    rcases hb1 : bins.get? (k - 1) with _ | b1 <;>
      rcases hb2 : bins.get? k with _ | b2 <;>
      rw [hb1, hb2] at h
    · simp at h
    · simp at h
    · simp at h
    · simp only [Option.map_eq_some'] at h
      obtain ⟨m, hm, hsp⟩ := h
      exact ⟨k, b1, b2, m, rfl, Nat.one_le_iff_ne_zero.mpr hk0, hb1, hb2, hm, hsp.symm⟩

lemma trimOnce_length {bins bins' : List Bin} (h : trimOnce bins = some bins') :
    bins'.length + 1 = bins.length := by
  obtain ⟨k, b1, b2, m, _, hk, h1, h2, _, hsplice⟩ := trimOnce_some h
  have hdec := congrArg List.length (bins_decomp bins k hk h1 h2)
  have hsp := congrArg List.length hsplice
  simp only [List.length_append, List.length_cons] at hdec hsp
  omega

lemma trimOnce_total {bins bins' : List Bin} (h : trimOnce bins = some bins') :
    binsTotal bins' = binsTotal bins := by
  obtain ⟨k, b1, b2, m, _, hk, h1, h2, hm, hsplice⟩ := trimOnce_some h
  have hmc : m.Count = b1.Count + b2.Count := by
    unfold mergedBin at hm
    by_cases hz : b1.Count + b2.Count = 0
    · simp [hz] at hm
    · simp only [if_neg hz] at hm
      cases hm
      rfl
  have hdec := bins_decomp bins k hk h1 h2
  conv_rhs => rw [hdec]
  rw [hsplice, binsTotal_append, binsTotal_append]
  simp only [binsTotal]
  rw [hmc]
  ring

/-- The merged value sits strictly between the two merged values when both
counts are positive. -/
lemma weighted_avg_between {v1 v2 w1 w2 : ℚ} (h12 : v1 < v2) (hw1 : 0 < w1) (hw2 : 0 < w2) :
    v1 < (v1 * w1 + v2 * w2) / (w1 + w2) ∧ (v1 * w1 + v2 * w2) / (w1 + w2) < v2 := by
  have hw : 0 < w1 + w2 := by linarith
  constructor
  · rw [lt_div_iff₀ hw]
    nlinarith
  · rw [div_lt_iff₀ hw]
    nlinarith

/-- `trimOnce` preserves strict sortedness and positivity of the counts. -/
lemma trimOnce_inv {bins bins' : List Bin}
    (hp : bins.Pairwise (fun a b => a.Value < b.Value))
    (hpos : ∀ b ∈ bins, 0 < b.Count)
    (h : trimOnce bins = some bins') :
    bins'.Pairwise (fun a b => a.Value < b.Value) ∧ ∀ b ∈ bins', 0 < b.Count := by
  obtain ⟨k, b1, b2, m, _, hk, h1, h2, hm, hsplice⟩ := trimOnce_some h
  have hdec := bins_decomp bins k hk h1 h2
  set l1 := bins.take (k - 1) with hl1
  set l2 := bins.drop (k + 1) with hl2
  rw [hdec] at hp hpos
  rw [List.pairwise_append] at hp
  obtain ⟨hpl1, hptail, hcross⟩ := hp
  have hb12 : b1.Value < b2.Value := List.rel_of_pairwise_cons hptail (List.mem_cons_self b2 l2)
  have hb2l2 : ∀ y ∈ l2, b2.Value < y.Value :=
    fun y hy => List.rel_of_pairwise_cons hptail.tail hy
  have hb1l2 : ∀ y ∈ l2, b1.Value < y.Value :=
    fun y hy => lt_trans hb12 (hb2l2 y hy)
  have hpl2 : l2.Pairwise (fun a b => a.Value < b.Value) := hptail.tail.tail
  have hb1pos : 0 < b1.Count := hpos b1 (by simp)
  have hb2pos : 0 < b2.Count := hpos b2 (by simp)
  have hmval : m.Value = (b1.Value * b1.Count + b2.Value * b2.Count) / (b1.Count + b2.Count) ∧
      m.Count = b1.Count + b2.Count := by
    unfold mergedBin at hm
    have hz : ¬(b1.Count + b2.Count = 0) := by positivity
    simp only [if_neg hz] at hm
    cases hm
    exact ⟨rfl, rfl⟩
  have hbetween := weighted_avg_between hb12 hb1pos hb2pos
  have hm1 : b1.Value < m.Value := by rw [hmval.1]; exact hbetween.1
  have hm2 : m.Value < b2.Value := by rw [hmval.1]; exact hbetween.2
  constructor
  · rw [hsplice, List.pairwise_append]
    refine ⟨hpl1, ?_, ?_⟩
    · refine List.Pairwise.cons ?_ hpl2
      intro y hy
      exact lt_trans hm2 (hb2l2 y hy)
    · intro x hx y hy
      have hxb1 : x.Value < b1.Value := hcross x hx b1 (List.mem_cons_self b1 _)
      rcases List.mem_cons.mp hy with hy | hy
      · subst hy; exact lt_trans hxb1 hm1
      · exact hcross x hx y (List.mem_cons_of_mem b1 (List.mem_cons_of_mem b2 hy))
  · intro x hx
    rw [hsplice] at hx
    rcases List.mem_append.mp hx with hx | hx
    · exact hpos x (List.mem_append.mpr (Or.inl hx))
    · rcases List.mem_cons.mp hx with hx | hx
      · subst hx
        rw [hmval.2]
        positivity
      · exact hpos x (List.mem_append.mpr (Or.inr
          (List.mem_cons_of_mem b1 (List.mem_cons_of_mem b2 hx))))

/-! ## The trim loop -/

lemma trimLoopFuel_le {maxbins : ℤ} :
    ∀ {fuel : ℕ} {bins bins' : List Bin}, trimLoopFuel maxbins fuel bins = some bins' →
      (bins'.length : ℤ) ≤ maxbins
  | 0, bins, bins', h => by
    unfold trimLoopFuel at h
    by_cases hc : maxbins < (bins.length : ℤ)
    · simp [hc] at h
    · simp only [if_neg hc, Option.some.injEq] at h
      subst h
      exact not_lt.mp hc
  | fuel + 1, bins, bins', h => by
    unfold trimLoopFuel at h
    by_cases hc : maxbins < (bins.length : ℤ)
    · simp only [if_pos hc, Option.bind_eq_some] at h
      obtain ⟨mid, _, hrec⟩ := h
      exact trimLoopFuel_le hrec
    · simp only [if_neg hc, Option.some.injEq] at h
      subst h
      exact not_lt.mp hc

lemma trimLoopFuel_total {maxbins : ℤ} :
    ∀ {fuel : ℕ} {bins bins' : List Bin}, trimLoopFuel maxbins fuel bins = some bins' →
      binsTotal bins' = binsTotal bins
  | 0, bins, bins', h => by
    unfold trimLoopFuel at h
    by_cases hc : maxbins < (bins.length : ℤ)
    · simp [hc] at h
    · simp only [if_neg hc, Option.some.injEq] at h
      subst h
      rfl
  | fuel + 1, bins, bins', h => by
    unfold trimLoopFuel at h
    by_cases hc : maxbins < (bins.length : ℤ)
    · simp only [if_pos hc, Option.bind_eq_some] at h
      obtain ⟨mid, hmid, hrec⟩ := h
      rw [trimLoopFuel_total hrec, trimOnce_total hmid]
    · simp only [if_neg hc, Option.some.injEq] at h
      subst h
      rfl

lemma trimLoopFuel_inv {maxbins : ℤ} :
    ∀ {fuel : ℕ} {bins bins' : List Bin},
      bins.Pairwise (fun a b => a.Value < b.Value) → (∀ b ∈ bins, 0 < b.Count) →
      trimLoopFuel maxbins fuel bins = some bins' →
      bins'.Pairwise (fun a b => a.Value < b.Value) ∧ ∀ b ∈ bins', 0 < b.Count
  | 0, bins, bins', hp, hpos, h => by
    unfold trimLoopFuel at h
    by_cases hc : maxbins < (bins.length : ℤ)
    · simp [hc] at h
    · simp only [if_neg hc, Option.some.injEq] at h
      subst h
      exact ⟨hp, hpos⟩
  | fuel + 1, bins, bins', hp, hpos, h => by
    unfold trimLoopFuel at h
    by_cases hc : maxbins < (bins.length : ℤ)
    · simp only [if_pos hc, Option.bind_eq_some] at h
      obtain ⟨mid, hmid, hrec⟩ := h
      obtain ⟨hp2, hpos2⟩ := trimOnce_inv hp hpos hmid
      exact trimLoopFuel_inv hp2 hpos2 hrec
    · simp only [if_neg hc, Option.some.injEq] at h
      subst h
      exact ⟨hp, hpos⟩

lemma deltas_getD_eq (bins : List Bin) (j : ℕ) (hj : j + 1 < bins.length) :
    (deltas bins).getD j 0 =
      (bins.get ⟨j + 1, hj⟩).Value - (bins.get ⟨j, Nat.lt_of_succ_lt hj⟩).Value := by
  have hjd : j < (deltas bins).length := by
    rw [deltas_length]
    omega
  rw [deltas_getD bins j hjd, List.getD_eq_get _ _ hj,
    List.getD_eq_get _ _ (Nat.lt_of_succ_lt hj)]

/-- When the scan result, the two adjacent bins and the nonzero merged weight
are known, `trimOnce` produces exactly the spliced list. -/
lemma trimOnce_eq {bins : List Bin} {d : ℚ} {k : ℕ}
    (hscan : minScan (deltas bins) 1 ((10 : ℚ) ^ 99, 0) = (d, k)) (hk : k ≠ 0)
    {b1 b2 : Bin} (h1 : bins.get? (k - 1) = some b1) (h2 : bins.get? k = some b2)
    (hw : b1.Count + b2.Count ≠ 0) :
    trimOnce bins = some (bins.take (k - 1) ++
      { Value := (b1.Value * b1.Count + b2.Value * b2.Count) / (b1.Count + b2.Count),
        Count := b1.Count + b2.Count } :: bins.drop (k + 1)) := by
  simp only [trimOnce]
  rw [hscan]
  simp only [if_neg hk]
  rw [h1, h2]
  simp [mergedBin, hw]

/-! ## Invariant preservation through `Add` -/

lemma addPreTrim_pairwise {bins : List Bin} (alpha n : ℚ)
    (hp : bins.Pairwise (fun a b => a.Value < b.Value)) :
    (addPreTrim bins alpha n).Pairwise (fun a b => a.Value < b.Value) := by
  unfold addPreTrim
  rcases (addCore bins n).2 with _ | i
  · exact addCore_pairwise bins n hp
  · exact scaleDown_pairwise i alpha (addCore_pairwise bins n hp)

lemma addPreTrim_pos {bins : List Bin} {alpha : ℚ} (n : ℚ) (ha : 0 < alpha)
    (hpos : ∀ b ∈ bins, 0 < b.Count) :
    ∀ b ∈ addPreTrim bins alpha n, 0 < b.Count := by
  unfold addPreTrim
  rcases (addCore bins n).2 with _ | i
  · exact addCore_count_pos bins n hpos
  · exact scaleDown_count_pos i ha (addCore_count_pos bins n hpos)

/-- Unfolding a successful `Add` into its `trim` result. -/
lemma Add_some_parts {h : WeightedHistogram} {n : ℚ} {h2 : WeightedHistogram}
    (hAdd : Add h n = some h2) :
    ∃ bins2,
      trimLoopFuel h.Maxbins (addPreTrim h.Bins h.Alpha n).length
          (addPreTrim h.Bins h.Alpha n) = some bins2 ∧
      h2 = { Bins := bins2, Maxbins := h.Maxbins,
             Total := binsTotal (addPreTrim h.Bins h.Alpha n), Alpha := h.Alpha } := by
  unfold Add trim at hAdd
  simp only [Option.map_eq_some'] at hAdd
  obtain ⟨bins2, hb, hh⟩ := hAdd
  exact ⟨bins2, hb, hh.symm⟩

lemma Add_inv {h : WeightedHistogram} {n : ℚ} {h2 : WeightedHistogram}
    (ha : 0 < h.Alpha)
    (hp : h.Bins.Pairwise (fun a b => a.Value < b.Value))
    (hpos : ∀ b ∈ h.Bins, 0 < b.Count)
    (hAdd : Add h n = some h2) :
    h2.Bins.Pairwise (fun a b => a.Value < b.Value) ∧ (∀ b ∈ h2.Bins, 0 < b.Count) ∧
      (h2.Bins.length : ℤ) ≤ h.Maxbins ∧ h2.Maxbins = h.Maxbins ∧ h2.Alpha = h.Alpha := by
  obtain ⟨bins2, hb, hh⟩ := Add_some_parts hAdd
  have hinv := trimLoopFuel_inv (addPreTrim_pairwise h.Alpha n hp) (addPreTrim_pos n ha hpos) hb
  have hle := trimLoopFuel_le hb
  subst hh
  exact ⟨hinv.1, hinv.2, hle, rfl, rfl⟩

lemma AddAll_inv :
    ∀ (samples : List ℚ) (h h2 : WeightedHistogram),
      0 < h.Alpha →
      h.Bins.Pairwise (fun a b => a.Value < b.Value) →
      (∀ b ∈ h.Bins, 0 < b.Count) →
      (h.Bins.length : ℤ) ≤ h.Maxbins →
      AddAll h samples = some h2 →
      h2.Bins.Pairwise (fun a b => a.Value < b.Value) ∧ (∀ b ∈ h2.Bins, 0 < b.Count) ∧
        (h2.Bins.length : ℤ) ≤ h.Maxbins ∧ h2.Maxbins = h.Maxbins ∧ h2.Alpha = h.Alpha
  | [], h, h2, _, hp, hpos, hlen, hAll => by
    simp only [AddAll, Option.some.injEq] at hAll
    subst hAll
    exact ⟨hp, hpos, hlen, rfl, rfl⟩
  | n :: rest, h, h2, ha, hp, hpos, hlen, hAll => by
    simp only [AddAll] at hAll
    rcases hstep : Add h n with _ | hmid
    · rw [hstep] at hAll
      simp at hAll
    · rw [hstep] at hAll
      obtain ⟨hp2, hpos2, hlen2, hmax2, halpha2⟩ := Add_inv ha hp hpos hstep
      have := AddAll_inv rest hmid h2 (halpha2 ▸ ha) hp2 hpos2 (hmax2 ▸ hlen2) hAll
      rw [hmax2, halpha2] at this
      exact this

/-! ## Quantile and CDF lemmas -/

lemma prefixW_zero (b : Bin) (rest : List Bin) : prefixW (b :: rest) 0 = b.Count := by
  simp [prefixW, binsTotal]

lemma prefixW_succ (b : Bin) (rest : List Bin) (i : ℕ) :
    prefixW (b :: rest) (i + 1) = b.Count + prefixW rest i := by
  simp [prefixW, binsTotal]

lemma quantileLoop_notfound :
    ∀ (bins : List Bin) (count : ℚ),
      (∀ i, i < bins.length → prefixW bins i < count) → quantileLoop count bins = -1
  | [], _, _ => rfl
  | b :: rest, count, hall => by
    have h0 := hall 0 (Nat.succ_pos _)
    rw [prefixW_zero] at h0
    have hnot : ¬(count - b.Count ≤ 0) := by linarith
    simp only [quantileLoop, if_neg hnot]
    refine quantileLoop_notfound rest (count - b.Count) (fun i hi => ?_)
    have := hall (i + 1) (by simpa using hi)
    rw [prefixW_succ] at this
    linarith

lemma quantileLoop_found :
    ∀ (bins : List Bin) (count : ℚ) (i : ℕ) (hi : i < bins.length),
      count ≤ prefixW bins i → (∀ j, j < i → prefixW bins j < count) →
      quantileLoop count bins = (bins.get ⟨i, hi⟩).Value
  | [], _, i, hi, _, _ => absurd hi (Nat.not_lt_zero i)
  | b :: rest, count, 0, _, hle, _ => by
    rw [prefixW_zero] at hle
    have : count - b.Count ≤ 0 := by linarith
    simp [quantileLoop, this]
  | b :: rest, count, i + 1, hi, hle, hbefore => by
    have h0 := hbefore 0 (Nat.succ_pos _)
    rw [prefixW_zero] at h0
    have hnot : ¬(count - b.Count ≤ 0) := by linarith
    simp only [quantileLoop, if_neg hnot]
    rw [prefixW_succ] at hle
    have hrec := quantileLoop_found rest (count - b.Count) i (by simpa using hi)
      (by linarith)
      (fun j hj => by
        have := hbefore (j + 1) (by omega)
        rw [prefixW_succ] at this
        linarith)
    rw [hrec]
    simp

lemma cdfLoop_all_le :
    ∀ (bins : List Bin) (x : ℚ), (∀ b ∈ bins, b.Value ≤ x) →
      cdfLoop x bins = binsTotal bins
  | [], _, _ => rfl
  | b :: rest, x, hall => by
    have hb : b.Value ≤ x := hall b (List.mem_cons_self b rest)
    simp only [cdfLoop, if_pos hb, binsTotal]
    rw [cdfLoop_all_le rest x (fun y hy => hall y (List.mem_cons_of_mem b hy))]

lemma pairwise_le_getLast :
    ∀ (bins : List Bin) (hne : bins ≠ []),
      bins.Pairwise (fun a b => a.Value < b.Value) →
      ∀ b ∈ bins, b.Value ≤ (bins.getLast hne).Value
  | [], hne, _ => absurd rfl hne
  | [c], _, _ => by
    intro b hb
    simp only [List.mem_singleton] at hb
    subst hb
    simp [List.getLast]
  | c :: d :: rs, _, hp => by
    intro b hb
    have hne2 : d :: rs ≠ [] := by simp
    rw [List.getLast_cons hne2]
    rcases List.mem_cons.mp hb with hb | hb
    · subst hb
      have hmem : (d :: rs).getLast hne2 ∈ d :: rs := List.getLast_mem hne2
      exact (List.rel_of_pairwise_cons hp hmem).le
    · exact pairwise_le_getLast (d :: rs) hne2 hp.tail b hb

lemma quantileLoop_total :
    ∀ (bins : List Bin) (hne : bins ≠ []), (∀ b ∈ bins, 0 < b.Count) →
      quantileLoop (binsTotal bins) bins = (bins.getLast hne).Value
  | [], hne, _ => absurd rfl hne
  | [b], _, _ => by
    have : binsTotal [b] - b.Count ≤ 0 := by simp [binsTotal]
    simp [quantileLoop, this, List.getLast]
  | b :: c :: rs, _, hpos => by
    have hrestpos : ∀ x ∈ c :: rs, 0 < x.Count :=
      fun x hx => hpos x (List.mem_cons_of_mem b hx)
    have hne2 : c :: rs ≠ [] := by simp
    have hrt : 0 < binsTotal (c :: rs) := binsTotal_pos _ hne2 hrestpos
    have harith : binsTotal (b :: c :: rs) - b.Count = binsTotal (c :: rs) := by
      simp [binsTotal]
    have hnot : ¬(binsTotal (b :: c :: rs) - b.Count ≤ 0) := by
      rw [harith]
      linarith
    have hstep : quantileLoop (binsTotal (b :: c :: rs)) (b :: c :: rs) =
        quantileLoop (binsTotal (c :: rs)) (c :: rs) := by
      rw [quantileLoop, if_neg hnot, harith]
    rw [hstep, quantileLoop_total (c :: rs) hne2 hrestpos, List.getLast_cons hne2]

/-! ## Claim theorems -/

/-- C4: after every `Add` that returns, the cached total weight equals the sum
of the weights of the bins currently in the bin list. -/
theorem total_eq_sum_after_add (h : WeightedHistogram) (n : ℚ) (h2 : WeightedHistogram)
    (hAdd : Add h n = some h2) : h2.Total = binsTotal h2.Bins := by
  obtain ⟨bins2, hb, hh⟩ := Add_some_parts hAdd
  subst hh
  exact (trimLoopFuel_total hb).symm

/-- Witness for C4: a concrete successful `Add` whose resulting total equals
the sum of the resulting bin counts. -/
theorem total_eq_sum_after_add_witness :
    Add (NewWeightedHistogram 5 (1/2)) 1 = some histOne ∧
    histOne.Total = binsTotal histOne.Bins := by
  have hAdd : Add (NewWeightedHistogram 5 (1/2)) 1 = some histOne := by
    norm_num [GoHistogram.Add, trim, addPreTrim, addCore, scaleDown, scaleDownAux, binsTotal,
      trimLoopFuel, trimOnce, deltas, minScan, mergedBin, NewWeightedHistogram, histOne]
  exact ⟨hAdd, total_eq_sum_after_add _ 1 _ hAdd⟩

/-- C5: on a sorted bin list, `Quantile q` returns the smallest bin value
whose prefix weight reaches `q * Total`, and the sentinel `-1` when no prefix
sum reaches that target. -/
theorem quantile_smallest_reaching (h : WeightedHistogram) (q : ℚ)
    (hs : h.Bins.Pairwise (fun a b => a.Value < b.Value)) :
    ((∀ i, i < h.Bins.length → prefixW h.Bins i < q * h.Total) ∧ Quantile h q = -1) ∨
    (∃ i, ∃ hi : i < h.Bins.length,
      Quantile h q = (h.Bins.get ⟨i, hi⟩).Value ∧
      q * h.Total ≤ prefixW h.Bins i ∧
      ∀ j, ∀ hj : j < h.Bins.length, q * h.Total ≤ prefixW h.Bins j →
        (h.Bins.get ⟨i, hi⟩).Value ≤ (h.Bins.get ⟨j, hj⟩).Value) := by
  by_cases hex : ∃ i, i < h.Bins.length ∧ q * h.Total ≤ prefixW h.Bins i
  · right
    obtain ⟨hi0len, hi0ge⟩ := Nat.find_spec hex
    have hbefore : ∀ j, j < Nat.find hex → prefixW h.Bins j < q * h.Total := by
      intro j hj
      have hmin := Nat.find_min hex hj
      push_neg at hmin
      exact hmin (lt_trans hj hi0len)
    refine ⟨Nat.find hex, hi0len,
      quantileLoop_found h.Bins (q * h.Total) (Nat.find hex) hi0len hi0ge hbefore, hi0ge, ?_⟩
    intro j hj hjge
    have hle : Nat.find hex ≤ j := Nat.find_min' hex ⟨hj, hjge⟩
    rcases eq_or_lt_of_le hle with he | hlt
    · subst he
      exact le_refl _
    · exact (List.pairwise_iff_get.mp hs ⟨Nat.find hex, hi0len⟩ ⟨j, hj⟩ hlt).le
  · left
    push_neg at hex
    exact ⟨hex, quantileLoop_notfound h.Bins (q * h.Total) hex⟩

/-- Witness for C5: the theorem applied at a concrete singleton histogram. -/
theorem quantile_smallest_reaching_witness :
    histOne.Bins.Pairwise (fun a b => a.Value < b.Value) ∧
    (((∀ i, i < histOne.Bins.length → prefixW histOne.Bins i < (1/2) * histOne.Total) ∧
        Quantile histOne (1/2) = -1) ∨
      (∃ i, ∃ hi : i < histOne.Bins.length,
        Quantile histOne (1/2) = (histOne.Bins.get ⟨i, hi⟩).Value ∧
        (1/2) * histOne.Total ≤ prefixW histOne.Bins i ∧
        ∀ j, ∀ hj : j < histOne.Bins.length,
          (1/2) * histOne.Total ≤ prefixW histOne.Bins j →
          (histOne.Bins.get ⟨i, hi⟩).Value ≤ (histOne.Bins.get ⟨j, hj⟩).Value)) :=
  ⟨by simp [histOne], quantile_smallest_reaching histOne (1/2) (by simp [histOne])⟩

/-- C6 (amended): when no prefix sum reaches the target, `Quantile` returns
the fixed sentinel `-1`; this sentinel is not distinguishable from every
possible bin value, since a bin can itself carry the value `-1` (see the
counterexample). -/
theorem quantile_sentinel (h : WeightedHistogram) (q : ℚ)
    (hnone : ∀ i, i < h.Bins.length → prefixW h.Bins i < q * h.Total) :
    Quantile h q = -1 :=
  quantileLoop_notfound h.Bins (q * h.Total) hnone

/-- Witness for C6: a concrete no-result call returning `-1`. -/
theorem quantile_sentinel_witness :
    (∀ i, i < histNegOne.Bins.length →
      prefixW histNegOne.Bins i < 2 * histNegOne.Total) ∧
    Quantile histNegOne 2 = -1 := by
  have hpre : ∀ i, i < histNegOne.Bins.length →
      prefixW histNegOne.Bins i < 2 * histNegOne.Total := by
    intro i hi
    simp only [histNegOne, List.length_singleton] at hi
    have hi0 : i = 0 := by omega
    subst hi0
    norm_num [histNegOne, prefixW, binsTotal]
  exact ⟨hpre, quantile_sentinel histNegOne 2 hpre⟩

/-- Counterexample for C6 as stated: the sentinel `-1` coincides with a value
an actual bin carries in a reachable state, so it is not distinguishable from
every value a bin could hold: `Quantile 1` (a found result) and `Quantile 2`
(the no-result sentinel) both return `-1` on the histogram reached by
inserting the sample `-1`. -/
theorem quantile_sentinel_collision_counterexample :
    AddAll (NewWeightedHistogram 5 (1/2)) [-1] = some histNegOne ∧
    Quantile histNegOne 2 = -1 ∧
    Quantile histNegOne 1 = -1 ∧
    ({ Value := (-1 : ℚ), Count := (1 : ℚ) } : Bin) ∈ histNegOne.Bins := by
  refine ⟨?_, ?_, ?_, by simp [histNegOne]⟩ <;>
    norm_num [AddAll, GoHistogram.Add, trim, addPreTrim, addCore, scaleDown, scaleDownAux,
      binsTotal, trimLoopFuel, trimOnce, deltas, minScan, mergedBin, NewWeightedHistogram,
      Quantile, quantileLoop, histNegOne]

/-- C7: with `Total = 0` (the empty histogram), `Mean` and `Variance` are
explicitly guarded to `0`, while `CDF` performs the unguarded division
`0 / 0`, whose IEEE result (`NaN`) is modelled here as `none`. -/
theorem empty_histogram_queries (h : WeightedHistogram) (h0 : h.Total = 0) :
    Mean h = 0 ∧ Variance h = 0 ∧ ∀ x, CDF h x = none := by
  refine ⟨?_, ?_, fun x => ?_⟩
  · simp [Mean, h0]
  · simp [Variance, h0]
  · simp [CDF, fdiv, h0]

/-- Witness for C7: the queries on a freshly constructed histogram. -/
theorem empty_histogram_queries_witness :
    (NewWeightedHistogram 7 (1/2)).Total = 0 ∧
    (Mean (NewWeightedHistogram 7 (1/2)) = 0 ∧ Variance (NewWeightedHistogram 7 (1/2)) = 0 ∧
      ∀ x, CDF (NewWeightedHistogram 7 (1/2)) x = none) :=
  ⟨rfl, empty_histogram_queries _ rfl⟩

/-- C8 (amended): construction performs no validation whatsoever — for every
`maxBins` (including `≤ 0`) and every `decayFactor` (including values outside
`(0,1]`) the constructor returns an ordinary histogram; the misuse surfaces
only later (e.g. the first `Add` on a `maxBins = 0` histogram panics inside
`trim`). -/
theorem constructor_no_validation :
    (∀ (n : ℤ) (alpha : ℚ), NewWeightedHistogram n alpha =
      { Bins := [], Maxbins := n, Total := 0, Alpha := alpha }) ∧
    (∀ (alpha x : ℚ), Add (NewWeightedHistogram 0 alpha) x = none) := by
  refine ⟨fun n alpha => rfl, fun alpha x => ?_⟩
  rfl

/-- Counterexample for C8 as stated: invalid construction parameters are not
rejected — `maxBins = -3`, `decayFactor = 7` yields an ordinary histogram, and
with `decayFactor = 2 ∉ (0,1]` the histogram is fully usable (`Add` and
`Quantile` behave normally). -/
theorem constructor_rejects_nothing_counterexample :
    NewWeightedHistogram (-3) 7 =
      { Bins := [], Maxbins := -3, Total := 0, Alpha := 7 } ∧
    Add (NewWeightedHistogram 5 2) 1 =
      some { Bins := [{ Value := 1, Count := 1 }], Maxbins := 5, Total := 1, Alpha := 2 } ∧
    Quantile { Bins := [{ Value := 1, Count := 1 }], Maxbins := 5, Total := 1, Alpha := 2 } 1
      = 1 := by
  refine ⟨rfl, ?_, ?_⟩ <;>
    norm_num [GoHistogram.Add, trim, addPreTrim, addCore, scaleDown, scaleDownAux, binsTotal,
      trimLoopFuel, trimOnce, deltas, minScan, mergedBin, NewWeightedHistogram,
      Quantile, quantileLoop]

/-- C9: on a sorted non-empty histogram with positive weights whose total is
the sum of the weights, `Quantile 1` returns the last (largest) bin's value
and `CDF` of that value is exactly `1`. -/
theorem quantile_one_cdf_max (h : WeightedHistogram) (hne : h.Bins ≠ [])
    (hpos : ∀ b ∈ h.Bins, 0 < b.Count)
    (htot : h.Total = binsTotal h.Bins)
    (hs : h.Bins.Pairwise (fun a b => a.Value < b.Value)) :
    Quantile h 1 = (h.Bins.getLast hne).Value ∧
    CDF h ((h.Bins.getLast hne).Value) = some 1 := by
  have htpos : 0 < binsTotal h.Bins := binsTotal_pos _ hne hpos
  constructor
  · show quantileLoop (1 * h.Total) h.Bins = _
    rw [one_mul, htot]
    exact quantileLoop_total h.Bins hne hpos
  · show fdiv (cdfLoop _ h.Bins) h.Total = some 1
    rw [cdfLoop_all_le h.Bins _ (pairwise_le_getLast h.Bins hne hs), htot, fdiv,
      if_neg (ne_of_gt htpos)]
    rw [div_self (ne_of_gt htpos)]

/-- Witness for C9: a concrete two-bin histogram. -/
theorem quantile_one_cdf_max_witness :
    Quantile histTwoBins 1 = 2 ∧ CDF histTwoBins 2 = some 1 := by
  have happ := quantile_one_cdf_max histTwoBins
    (by simp [histTwoBins])
    (by
      intro b hb
      simp only [histTwoBins, List.mem_cons, List.mem_singleton] at hb
      rcases hb with hb | hb | hb
      · subst hb; norm_num
      · subst hb; norm_num
      · simp at hb)
    (by norm_num [histTwoBins, binsTotal])
    (by norm_num [histTwoBins])
  simpa [histTwoBins, List.getLast] using happ

/-- C10: with a non-empty bin list, strictly positive total weight and a
non-negative first weight (the data-model invariant), `Quantile q` for any
`q ≤ 0` returns the first bin's value rather than falling through to the
sentinel. -/
theorem quantile_nonpositive_q (h : WeightedHistogram) (b : Bin) (rest : List Bin)
    (hbins : h.Bins = b :: rest) (htot : 0 < h.Total) (q : ℚ) (hq : q ≤ 0)
    (hhead : 0 ≤ b.Count) :
    Quantile h q = b.Value := by
  have hqt : q * h.Total ≤ 0 := mul_nonpos_iff.mpr (Or.inr ⟨hq, htot.le⟩)
  show quantileLoop (q * h.Total) h.Bins = b.Value
  rw [hbins, quantileLoop, if_pos (by linarith)]

/-- Witness for C10: `Quantile (-1)` on a concrete two-bin histogram returns
the first bin's value. -/
theorem quantile_nonpositive_q_witness :
    Quantile histTwoBins (-1) = 1 :=
  quantile_nonpositive_q histTwoBins
    { Value := 1, Count := 1 } [{ Value := 2, Count := 1/2 }]
    rfl (by norm_num [histTwoBins]) (-1) (by norm_num) (by norm_num)

/-- C1 (amended): on an insertion that touches bin `i` (exact match or
insert-before), every *other* bin of the scanned list has its weight
multiplied by `alpha` itself (`ewma(w, 0, α) = w·α`), not by `1 - alpha`; and
on the append path (the sample is a new maximum) no decay happens at all —
the old bins are kept unchanged and the new unit bin is appended. -/
theorem add_decay_other_bins (bins : List Bin) (alpha n : ℚ) :
    (∀ i, (addCore bins n).2 = some i →
      ∀ j, j ≠ i →
        (addPreTrim bins alpha n).get? j =
          ((addCore bins n).1.get? j).map
            (fun b => { Value := b.Value, Count := b.Count * alpha })) ∧
    ((addCore bins n).2 = none →
      addPreTrim bins alpha n = bins ++ [{ Value := n, Count := 1 }]) := by
  constructor
  · intro i hi j hj
    have hpre : addPreTrim bins alpha n = scaleDown (addCore bins n).1 i alpha := by
      unfold addPreTrim
      rw [hi]
    rw [hpre, scaleDown, scaleDownAux_get?]
    have hne : ¬(0 + j = i) := by omega
    rcases (addCore bins n).1.get? j with _ | b
    · rfl
    · simp [hj, ewma_zero]
  · intro hnone
    have hpre : addPreTrim bins alpha n = (addCore bins n).1 := by
      unfold addPreTrim
      rw [hnone]
    rw [hpre]
    exact addCore_none bins n hnone

/-- Witness for C1 (amended): inserting `1` below the bin holding `2` scales
that bin's weight by `alpha = 1/4` exactly. -/
theorem add_decay_other_bins_witness :
    (addCore [{ Value := 2, Count := 1 }] 1).2 = some 0 ∧ (1 : ℕ) ≠ 0 ∧
    (addPreTrim [{ Value := 2, Count := 1 }] (1/4) 1).get? 1 =
      ((addCore [{ Value := 2, Count := 1 }] 1).1.get? 1).map
        (fun b => { Value := b.Value, Count := b.Count * (1/4) }) := by
  refine ⟨by norm_num [addCore], by norm_num, ?_⟩
  exact (add_decay_other_bins [{ Value := 2, Count := 1 }] (1/4) 1).1 0
    (by norm_num [addCore]) 1 (by norm_num)

/-- Counterexample for C1 as stated: reachable two-`Add` runs where an
untouched bin's new weight is *not* `old * (1 - alpha)`.  With `alpha = 1/4`:
inserting `1` below `2` leaves the `2`-bin with weight `1/4` (scaled by
`alpha`, not `3/4`), and inserting the new maximum `2` above `1` leaves the
`1`-bin with weight `1` (no decay at all, not `3/4`). -/
theorem add_decay_claim_counterexample :
    (AddAll (NewWeightedHistogram 5 (1/4)) [2, 1] = some
      { Bins := [{ Value := 1, Count := 1 }, { Value := 2, Count := 1/4 }],
        Maxbins := 5, Total := 5/4, Alpha := 1/4 } ∧
      (1/4 : ℚ) ≠ 1 * (1 - 1/4)) ∧
    (AddAll (NewWeightedHistogram 5 (1/4)) [1, 2] = some
      { Bins := [{ Value := 1, Count := 1 }, { Value := 2, Count := 1 }],
        Maxbins := 5, Total := 2, Alpha := 1/4 } ∧
      (1 : ℚ) ≠ 1 * (1 - 1/4)) := by
  refine ⟨⟨?_, by norm_num⟩, ?_, by norm_num⟩ <;>
    norm_num [AddAll, GoHistogram.Add, trim, addPreTrim, addCore, scaleDown, scaleDownAux,
      binsTotal, trimLoopFuel, trimOnce, deltas, minScan, mergedBin, NewWeightedHistogram,
      ewma]

/-- C2: starting from a constructor call with `maxBins ≥ 1` (and a decay
factor satisfying the constructor contract `0 < alpha`), after every
successful sequence of `Add` calls the bin list has at most `maxBins` bins
and is strictly sorted ascending by value (hence carries no duplicate
values). -/
theorem insert_keeps_sorted_bounded (n : ℤ) (alpha : ℚ) (hn : 1 ≤ n) (ha : 0 < alpha)
    (samples : List ℚ) (h2 : WeightedHistogram)
    (hAll : AddAll (NewWeightedHistogram n alpha) samples = some h2) :
    (h2.Bins.length : ℤ) ≤ n ∧ h2.Bins.Pairwise (fun a b => a.Value < b.Value) := by
  have hinv := AddAll_inv samples (NewWeightedHistogram n alpha) h2 ha
    (by simp [NewWeightedHistogram])
    (by simp [NewWeightedHistogram])
    (by
      show ((List.length [] : ℕ) : ℤ) ≤ n
      simpa using le_trans zero_le_one hn)
    hAll
  exact ⟨hinv.2.2.1, hinv.1⟩

/-- Witness for C2: three inserts into a 2-bin histogram force a merge; the
result has 2 sorted bins. -/
theorem insert_keeps_sorted_bounded_witness :
    (1 : ℤ) ≤ 2 ∧ (0 : ℚ) < 1/2 ∧
    AddAll (NewWeightedHistogram 2 (1/2)) [3, 1, 2] = some histMerged ∧
    ((histMerged.Bins.length : ℤ) ≤ 2 ∧
      histMerged.Bins.Pairwise (fun a b => a.Value < b.Value)) := by
  have hAll : AddAll (NewWeightedHistogram 2 (1/2)) [3, 1, 2] = some histMerged := by
    norm_num [AddAll, GoHistogram.Add, trim, addPreTrim, addCore, scaleDown, scaleDownAux,
      binsTotal, trimLoopFuel, trimOnce, deltas, minScan, mergedBin, NewWeightedHistogram,
      ewma, histMerged]
    norm_num [trimLoopFuel, trimOnce, deltas, minScan, mergedBin, binsTotal,
      List.getElem_cons]
  exact ⟨by norm_num, by norm_num, hAll,
    insert_keeps_sorted_bounded 2 (1/2) (by norm_num) (by norm_num) [3, 1, 2] _ hAll⟩

/-- C3 (amended): when compaction runs over budget and some adjacent gap is
below the `1e99` scan sentinel, one iteration merges the pair `(k-1, k)`
whose gap is minimal among all adjacent gaps — the first such pair in
ascending index order on ties — into a bin with summed weight and
count-weighted average value, and the loop continues on the spliced list
until at most `maxBins` bins remain.  (When no adjacent gap is below `1e99`,
the iteration instead reads index `-1` and panics — see the
counterexample.) -/
theorem trim_merges_first_minimal_gap
    (maxbins : ℤ) (bins : List Bin)
    (hpos : ∀ b ∈ bins, 0 < b.Count)
    (hover : maxbins < (bins.length : ℤ))
    (hgap : ∃ j, ∃ hj : j + 1 < bins.length,
      (bins.get ⟨j + 1, hj⟩).Value - (bins.get ⟨j, Nat.lt_of_succ_lt hj⟩).Value
        < (10 : ℚ) ^ 99) :
    ∃ k b1 b2, 1 ≤ k ∧ k < bins.length ∧
      bins.get? (k - 1) = some b1 ∧ bins.get? k = some b2 ∧
      (∀ j, ∀ hj : j + 1 < bins.length,
        b2.Value - b1.Value ≤
          (bins.get ⟨j + 1, hj⟩).Value - (bins.get ⟨j, Nat.lt_of_succ_lt hj⟩).Value) ∧
      (∀ j, ∀ hj : j + 1 < bins.length, j + 1 < k →
        b2.Value - b1.Value <
          (bins.get ⟨j + 1, hj⟩).Value - (bins.get ⟨j, Nat.lt_of_succ_lt hj⟩).Value) ∧
      trimOnce bins = some (bins.take (k - 1) ++
        { Value := (b1.Value * b1.Count + b2.Value * b2.Count) / (b1.Count + b2.Count),
          Count := b1.Count + b2.Count } :: bins.drop (k + 1)) ∧
      (∀ fuel, trimLoopFuel maxbins (fuel + 1) bins =
        trimLoopFuel maxbins fuel (bins.take (k - 1) ++
          { Value := (b1.Value * b1.Count + b2.Value * b2.Count) / (b1.Count + b2.Count),
            Count := b1.Count + b2.Count } :: bins.drop (k + 1))) ∧
      (∀ fuel bins2, trimLoopFuel maxbins fuel bins = some bins2 →
        (bins2.length : ℤ) ≤ maxbins) := by
  obtain ⟨j0, hj0, hj0lt⟩ := hgap
  have hj0d : j0 < (deltas bins).length := by
    rw [deltas_length]
    omega
  have hds0 : (deltas bins).getD j0 0 < (10 : ℚ) ^ 99 := by
    rw [deltas_getD_eq bins j0 hj0]
    exact hj0lt
  rcases minScan_spec (deltas bins) 1 ((10 : ℚ) ^ 99) 0 with ⟨_, hall⟩ |
    ⟨j, hjlen, heq, _, hmin, hstrict⟩
  · exact absurd hds0 (not_lt.mpr (hall j0 hj0d))
  · have hj1len : j + 1 < bins.length := by
      rw [deltas_length] at hjlen
      omega
    have hjblen : j < bins.length := Nat.lt_of_succ_lt hj1len
    set b1 := bins.get ⟨j, hjblen⟩ with hb1def
    set b2 := bins.get ⟨j + 1, hj1len⟩ with hb2def
    have hget1 : bins.get? (1 + j - 1) = some b1 := by
      have : 1 + j - 1 = j := by omega
      rw [this]
      exact List.get?_eq_get hjblen
    have hget2 : bins.get? (1 + j) = some b2 := by
      have : 1 + j = j + 1 := by omega
      rw [this]
      exact List.get?_eq_get hj1len
    have hdsj : (deltas bins).getD j 0 = b2.Value - b1.Value := deltas_getD_eq bins j hj1len
    have hb1pos : 0 < b1.Count := hpos b1 (List.get_mem bins j hjblen)
    have hb2pos : 0 < b2.Count := hpos b2 (List.get_mem bins (j + 1) hj1len)
    have hw : b1.Count + b2.Count ≠ 0 := ne_of_gt (by linarith)
    have hone := trimOnce_eq (d := (deltas bins).getD j 0) (k := 1 + j) heq
      (by omega) hget1 hget2 hw
    refine ⟨1 + j, b1, b2, by omega, by omega, hget1, hget2, ?_, ?_, hone, ?_, ?_⟩
    · intro j2 hj2
      have hj2d : j2 < (deltas bins).length := by
        rw [deltas_length]
        omega
      have := hmin j2 hj2d
      rw [hdsj, deltas_getD_eq bins j2 hj2] at this
      exact this
    · intro j2 hj2 hj2k
      have hj2j : j2 < j := by omega
      have := hstrict j2 hj2j
      rw [hdsj, deltas_getD_eq bins j2 hj2] at this
      exact this
    · intro fuel
      show (if maxbins < (bins.length : ℤ) then
              (trimOnce bins).bind (trimLoopFuel maxbins fuel)
            else some bins) = _
      rw [if_pos hover, hone, Option.some_bind]
    · intro fuel bins2 hloop
      exact trimLoopFuel_le hloop

/-- Witness for C3 (amended): on three bins `1, 2, 4` over a 2-bin budget the
pair `(1, 2)` is merged into `(3/2, 2)`. -/
theorem trim_merges_first_minimal_gap_witness :
    (∀ b ∈ binsOverBudget, 0 < b.Count) ∧ ((2 : ℤ) < (binsOverBudget.length : ℤ)) ∧
    (∃ j, ∃ hj : j + 1 < binsOverBudget.length,
      (binsOverBudget.get ⟨j + 1, hj⟩).Value -
        (binsOverBudget.get ⟨j, Nat.lt_of_succ_lt hj⟩).Value < (10 : ℚ) ^ 99) ∧
    (∃ k b1 b2, 1 ≤ k ∧ k < binsOverBudget.length ∧
      binsOverBudget.get? (k - 1) = some b1 ∧ binsOverBudget.get? k = some b2 ∧
      (∀ j, ∀ hj : j + 1 < binsOverBudget.length,
        b2.Value - b1.Value ≤
          (binsOverBudget.get ⟨j + 1, hj⟩).Value -
            (binsOverBudget.get ⟨j, Nat.lt_of_succ_lt hj⟩).Value) ∧
      (∀ j, ∀ hj : j + 1 < binsOverBudget.length, j + 1 < k →
        b2.Value - b1.Value <
          (binsOverBudget.get ⟨j + 1, hj⟩).Value -
            (binsOverBudget.get ⟨j, Nat.lt_of_succ_lt hj⟩).Value) ∧
      trimOnce binsOverBudget = some (binsOverBudget.take (k - 1) ++
        { Value := (b1.Value * b1.Count + b2.Value * b2.Count) / (b1.Count + b2.Count),
          Count := b1.Count + b2.Count } :: binsOverBudget.drop (k + 1)) ∧
      (∀ fuel, trimLoopFuel 2 (fuel + 1) binsOverBudget =
        trimLoopFuel 2 fuel (binsOverBudget.take (k - 1) ++
          { Value := (b1.Value * b1.Count + b2.Value * b2.Count) / (b1.Count + b2.Count),
            Count := b1.Count + b2.Count } :: binsOverBudget.drop (k + 1))) ∧
      (∀ fuel bins2, trimLoopFuel 2 fuel binsOverBudget = some bins2 →
        (bins2.length : ℤ) ≤ 2)) := by
  have hpos : ∀ b ∈ binsOverBudget, 0 < b.Count := by
    intro b hb
    simp only [binsOverBudget, List.mem_cons, List.mem_singleton] at hb
    rcases hb with hb | hb | hb | hb <;> first
    | (subst hb; norm_num)
    | simp at hb
  have hover : (2 : ℤ) < (binsOverBudget.length : ℤ) := by norm_num [binsOverBudget]
  have hgap : ∃ j, ∃ hj : j + 1 < binsOverBudget.length,
      (binsOverBudget.get ⟨j + 1, hj⟩).Value -
        (binsOverBudget.get ⟨j, Nat.lt_of_succ_lt hj⟩).Value < (10 : ℚ) ^ 99 := by
    refine ⟨0, by norm_num [binsOverBudget], ?_⟩
    norm_num [binsOverBudget, List.get]
  exact ⟨hpos, hover, hgap, trim_merges_first_minimal_gap 2 binsOverBudget hpos hover hgap⟩

/-- Counterexample for C3 as stated: with two retained bins whose values are
`2·10⁹⁹` apart and a budget of one bin, compaction does not merge the (only,
hence minimal-gap) adjacent pair: the `1e99`-initialised scan never selects
it, `minDeltaIndex` stays `0`, and the Go code panics reading `Bins[-1]`
(modelled as `none`) instead of reducing the bin count to `maxBins`. -/
theorem trim_minimal_gap_counterexample :
    AddAll (NewWeightedHistogram 1 1) [0, 2 * 10 ^ 99] = none := by
  norm_num [AddAll, GoHistogram.Add, trim, addPreTrim, addCore, scaleDown, scaleDownAux,
    binsTotal, trimLoopFuel, trimOnce, deltas, minScan, mergedBin, NewWeightedHistogram]

end GoHistogram
